import Mathlib

/-!
# Family-tree layout engine: a shallow embedding

This file embeds the relationship-graph layout algorithm of the family-tree
application (`calculateLayout` and `getEdgeStyle` in the tree view module,
together with the `RELATIONSHIP_CATEGORIES` table from the shared types
module) and proves properties of it.

Modelling conventions:
* `Person.birthday` is modelled by its timestamp value (the result of
  `new Date(p.birthday).getTime()`), an integer; all other descriptive
  person fields are opaque payload and are omitted.
* JavaScript `Map`/`Set` values used by the algorithm are modelled as
  functions `String → Option Nat` / `String → Bool`; the id-keyed adjacency
  lists are modelled as functions from an id to the list the source would
  have accumulated for that id, in the same order.
* The BFS loop is modelled with an explicit fuel parameter; a fuel value
  sufficient to drain the queue is computed from the input sizes, and a
  theorem below proves that the queue is in fact empty when the fuel runs
  out, so the fueled function coincides with the source's unbounded loop.
* `Array.prototype.sort` sorts in place; the content of the `people` array
  after a call is modelled by `peopleAfterLayout`, and the phases of the
  algorithm that run after the sort iterate over that (possibly reordered)
  array, exactly as the source does.
-/

inductive RelationshipType where
  | biological_parent
  | adoptive_parent
  | step_parent
  | foster_parent
  | guardian
  | spouse
  | ex_spouse
  | partner
  | ex_partner
  | sibling
  | half_sibling
  | step_sibling
  | adopted_sibling
deriving DecidableEq, Repr, Fintype

/-- `RELATIONSHIP_CATEGORIES.parent` from the shared types module. -/
def RELATIONSHIP_CATEGORIES_parent : List RelationshipType :=
  [.biological_parent, .adoptive_parent, .step_parent, .foster_parent, .guardian]

/-- `RELATIONSHIP_CATEGORIES.spouse` from the shared types module. -/
def RELATIONSHIP_CATEGORIES_spouse : List RelationshipType :=
  [.spouse, .ex_spouse, .partner, .ex_partner]

/-- `RELATIONSHIP_CATEGORIES.sibling` from the shared types module. -/
def RELATIONSHIP_CATEGORIES_sibling : List RelationshipType :=
  [.sibling, .half_sibling, .step_sibling, .adopted_sibling]

/-- `RELATIONSHIP_CATEGORIES.parent.includes(t)`. -/
def isParentType (t : RelationshipType) : Bool :=
  RELATIONSHIP_CATEGORIES_parent.contains t

/-- `RELATIONSHIP_CATEGORIES.spouse.includes(t)`. -/
def isSpouseType (t : RelationshipType) : Bool :=
  RELATIONSHIP_CATEGORIES_spouse.contains t

/-- `RELATIONSHIP_CATEGORIES.sibling.includes(t)`. -/
def isSiblingType (t : RelationshipType) : Bool :=
  RELATIONSHIP_CATEGORIES_sibling.contains t

/-- A person record, restricted to the fields the layout engine reads:
the opaque id and the birthday (modelled by its timestamp value). -/
structure Person where
  id : String
  birthday : Int
deriving DecidableEq, Repr

/-- A relationship record, restricted to the fields the layout engine reads. -/
structure Relationship where
  id : String
  person1_id : String
  person2_id : String
  relationship_type : RelationshipType
deriving DecidableEq, Repr

/-- The style object returned by `getEdgeStyle`. -/
structure EdgeStyle where
  stroke : String
  strokeWidth : Nat
  strokeDasharray : Option String
deriving DecidableEq, Repr

/-- An output edge (the fields `calculateLayout` sets on each edge). -/
structure Edge where
  id : String
  source : String
  target : String
  sourceHandle : Option String
  targetHandle : Option String
  style : EdgeStyle
  type : String
deriving DecidableEq, Repr

/-- An output node (the fields `calculateLayout` sets on each node);
`x`/`y` are the `position` coordinates and `person` is the `data` payload. -/
structure LayoutNode where
  id : String
  type : String
  x : Int
  y : Int
  person : Person
deriving DecidableEq, Repr

/-- The result record of `calculateLayout`. -/
structure LayoutResult where
  nodes : List LayoutNode
  edges : List Edge
deriving DecidableEq, Repr

def HORIZONTAL_SPACING : Int := 250
def VERTICAL_SPACING : Int := 200

/-- `getEdgeStyle` from the tree view module. -/
def getEdgeStyle (relationshipType : RelationshipType) : EdgeStyle :=
  if isParentType relationshipType then
    if relationshipType = .biological_parent then
      { stroke := "#6b7280", strokeWidth := 2, strokeDasharray := none }
    else
      { stroke := "#6b7280", strokeWidth := 2, strokeDasharray := some "5,5" }
  else if isSpouseType relationshipType then
    if relationshipType = .spouse ∨ relationshipType = .partner then
      { stroke := "#ec4899", strokeWidth := 3, strokeDasharray := none }
    else
      { stroke := "#ec4899", strokeWidth := 2, strokeDasharray := some "5,5" }
  else if isSiblingType relationshipType then
    { stroke := "#3b82f6", strokeWidth := 2, strokeDasharray := none }
  else
    { stroke := "#6b7280", strokeWidth := 2, strokeDasharray := none }

/-- The `childToParents` adjacency map: for a child id, the list of parent
ids accumulated over the relationship array in iteration order. An id the
map does not hold is represented by the empty list (the source treats a
missing entry and an empty entry alike when selecting roots). -/
def childToParents (rels : List Relationship) (c : String) : List String :=
  (rels.filter (fun r => isParentType r.relationship_type && r.person2_id == c)).map
    (fun r => r.person1_id)

/-- The `parentToChildren` adjacency map, as a function from a parent id to
the accumulated child list. -/
def parentToChildren (rels : List Relationship) (p : String) : List String :=
  (rels.filter (fun r => isParentType r.relationship_type && r.person1_id == p)).map
    (fun r => r.person2_id)

/-- The `spouses` adjacency map: each spouse-category relationship appends
`person2` to `person1`'s list and then `person1` to `person2`'s list. -/
def spousesOf (rels : List Relationship) (x : String) : List String :=
  rels.foldl
    (fun acc r =>
      if isSpouseType r.relationship_type then
        (if r.person1_id == x then acc ++ [r.person2_id] else acc) ++
          (if r.person2_id == x then [r.person1_id] else [])
      else acc)
    []

/-- `personIds`: the set of input person ids, kept as the list of ids. -/
def personIds (people : List Person) : List String :=
  people.map (fun p => p.id)

/-- The root candidates: people whose `childToParents` entry is missing or
empty. -/
def rootsOf (people : List Person) (rels : List Relationship) : List Person :=
  people.filter (fun p => (childToParents rels p.id).isEmpty)

/-- The comparator `(a, b) => new Date(a.birthday).getTime() - new Date(b.birthday).getTime()`
as an ordering on the modelled timestamps. -/
def birthdayLe (a b : Person) : Prop := a.birthday ≤ b.birthday

instance : DecidableRel birthdayLe := fun a b => Int.decLe a.birthday b.birthday

/-- The people array sorted by birthday (`people.sort(...)`): JavaScript's
sort is required to be stable, and a stable sort's output is determined by
the comparator alone, so a stable insertion sort models it exactly. -/
def sortedByBirthday (people : List Person) : List Person :=
  people.insertionSort birthdayLe

/-- The BFS start people: the full root set when nonempty, otherwise the
single earliest-birthday person (`people.sort(...)[0]`). -/
def startPeople (people : List Person) (rels : List Relationship) : List Person :=
  if (rootsOf people rels).isEmpty then (sortedByBirthday people).take 1
  else rootsOf people rels

/-- The content of the caller's `people` array after `calculateLayout`
returns: `people.sort(...)` reorders it in place when and only when the
root set is empty (the sort expression sits in the untaken ternary branch
otherwise, and the empty-people early return precedes it). -/
def peopleAfterLayout (people : List Person) (rels : List Relationship) : List Person :=
  if people.isEmpty then people
  else if (rootsOf people rels).isEmpty then sortedByBirthday people
  else people

/-- The mutable state of the BFS loop: the queue of `{id, gen}` records,
the `visited` set and the `generations` map. -/
structure BfsState where
  queue : List (String × Nat)
  visited : String → Bool
  gens : String → Option Nat

/-- One iteration of the `while (queue.length > 0)` loop body, given the
dequeued entry and the rest of the queue. -/
def bfsStep (rels : List Relationship) (pids : List String)
    (id : String) (gen : Nat) (rest : List (String × Nat)) (s : BfsState) : BfsState :=
  if s.visited id then { s with queue := rest }
  else
    let visited' := fun x => if x = id then true else s.visited x
    let gens₁ := fun x => if x = id then some (max ((s.gens id).getD 0) gen) else s.gens x
    let childPush :=
      ((parentToChildren rels id).filter (fun c => pids.contains c)).map
        (fun c => (c, gen + 1))
    let spList :=
      (spousesOf rels id).filter (fun sp => pids.contains sp && !visited' sp)
    let gens₂ := fun x => if spList.contains x then some gen else gens₁ x
    { queue := rest ++ childPush ++ spList.map (fun sp => (sp, gen)),
      visited := visited',
      gens := gens₂ }

/-- The BFS loop with an explicit fuel bound; `fuel = 0` returns the state
unchanged (a theorem below shows the chosen fuel always drains the queue,
so this case is never the one that ends a run of `calculateLayout`). -/
def bfsAux (rels : List Relationship) (pids : List String) :
    Nat → BfsState → BfsState
  | 0, s => s
  | _ + 1, { queue := [], visited := v, gens := g } =>
      { queue := [], visited := v, gens := g }
  | fuel + 1, s@{ queue := (id, gen) :: rest, .. } =>
      bfsAux rels pids fuel (bfsStep rels pids id gen rest s)

/-- The initial BFS state: every start person queued at generation 0. -/
def bfsInit (people : List Person) (rels : List Relationship) : BfsState :=
  { queue := (startPeople people rels).map (fun p => (p.id, 0)),
    visited := fun _ => false,
    gens := fun _ => none }

/-- A fuel value sufficient to drain the queue (proved below): every
iteration either pops a visited entry or marks a new id of `pids` visited,
and one processing step pushes at most `3 * rels.length` new entries. -/
def bfsFuel (people : List Person) (rels : List Relationship) : Nat :=
  (startPeople people rels).length +
    (personIds people).dedup.length * (1 + 3 * rels.length)

/-- The BFS state when the loop has finished. -/
def bfsFinal (people : List Person) (rels : List Relationship) : BfsState :=
  bfsAux rels (personIds people) (bfsFuel people rels) (bfsInit people rels)

/-- The generation of an id after the traversal, the disconnected default
and the `generations.get(p.id) || 0` read: a missing entry reads as 0. -/
def finalGen (people : List Person) (rels : List Relationship) (x : String) : Nat :=
  ((bfsFinal people rels).gens x).getD 0

/-- The sorted list of generation keys
(`Array.from(genGroups.keys()).sort((a, b) => a - b)`): the distinct
generation values of the (possibly reordered) people array, ascending. -/
def sortedGens (people : List Person) (rels : List Relationship) : List Nat :=
  (((peopleAfterLayout people rels).map
      (fun p => finalGen people rels p.id)).dedup).insertionSort (fun a b => a ≤ b)

/-- The generation row for key `gen`: the members of the (possibly
reordered) people array with that generation, in array order — the order
in which the single grouping pass appends them. -/
def genGroup (people : List Person) (rels : List Relationship) (gen : Nat) : List Person :=
  (peopleAfterLayout people rels).filter (fun p => finalGen people rels p.id == gen)

/-- The node built for the `index`-th member of the row for `gen`. -/
def mkNode (gen : Nat) (rowLen : Nat) (index : Nat) (person : Person) : LayoutNode :=
  { id := person.id,
    type := "person",
    x := -((rowLen : Int) - 1) * HORIZONTAL_SPACING / 2 + (index : Int) * HORIZONTAL_SPACING,
    y := -(gen : Int) * VERTICAL_SPACING,
    person := person }

/-- The positioned node list: rows in ascending generation order, each row
in array order. -/
def buildNodes (people : List Person) (rels : List Relationship) : List LayoutNode :=
  (sortedGens people rels).flatMap (fun gen =>
    let group := genGroup people rels gen
    group.enum.map (fun e => mkNode gen group.length e.1 e.2))

/-- The edge built from a surviving relationship: spouse-category edges get
the fixed `right`/`left` handles, every edge gets the `smoothstep` type. -/
def mkEdge (r : Relationship) : Edge :=
  { id := r.id,
    source := r.person1_id,
    target := r.person2_id,
    sourceHandle := if isSpouseType r.relationship_type then some "right" else none,
    targetHandle := if isSpouseType r.relationship_type then some "left" else none,
    style := getEdgeStyle r.relationship_type,
    type := "smoothstep" }

/-- One step of the edge-building pass: skip a relationship when an
endpoint id is not a person id or when an edge with its id was already
added (`addedEdges` is the second component). -/
def edgeFold (pids : List String) (acc : List Edge × List String)
    (r : Relationship) : List Edge × List String :=
  if pids.contains r.person1_id && pids.contains r.person2_id then
    if acc.2.contains r.id then acc
    else (acc.1 ++ [mkEdge r], acc.2 ++ [r.id])
  else acc

/-- The edge-building pass over the relationship array. -/
def buildEdges (pids : List String) (rels : List Relationship) : List Edge :=
  (rels.foldl (edgeFold pids) ([], [])).1

/-- `calculateLayout` from the tree view module. -/
def calculateLayout (people : List Person) (rels : List Relationship) : LayoutResult :=
  if people.isEmpty then { nodes := [], edges := [] }
  else
    { nodes := buildNodes people rels,
      edges := buildEdges (personIds people) rels }

/-! ## Helper lemmas about the edge-building pass -/

theorem mem_edgeFold_loop (pids : List String) (rels : List Relationship) :
    ∀ (acc : List Edge × List String) (e : Edge),
      e ∈ (rels.foldl (edgeFold pids) acc).1 →
      e ∈ acc.1 ∨ ∃ r ∈ rels,
        pids.contains r.person1_id = true ∧ pids.contains r.person2_id = true ∧
          e = mkEdge r := by
  induction rels with
  | nil => intro acc e h; exact Or.inl h
  | cons r rs ih =>
      intro acc e h
      rw [List.foldl_cons] at h
      rcases ih (edgeFold pids acc r) e h with h₁ | ⟨r₂, hr₂, hp₁, hp₂, he⟩
      · unfold edgeFold at h₁
        by_cases hp : (pids.contains r.person1_id && pids.contains r.person2_id) = true
        · rw [if_pos hp] at h₁
          by_cases hd : acc.2.contains r.id = true
          · rw [if_pos hd] at h₁; exact Or.inl h₁
          · rw [if_neg hd] at h₁
            rcases List.mem_append.mp h₁ with h₂ | h₂
            · exact Or.inl h₂
            · refine Or.inr ⟨r, List.mem_cons_self r rs, ?_, ?_, ?_⟩
              · exact (Bool.and_eq_true _ _).mp hp |>.1
              · exact (Bool.and_eq_true _ _).mp hp |>.2
              · simpa using h₂
        · rw [if_neg hp] at h₁; exact Or.inl h₁
      · exact Or.inr ⟨r₂, List.mem_cons_of_mem r hr₂, hp₁, hp₂, he⟩

theorem mem_buildEdges {pids : List String} {rels : List Relationship} {e : Edge}
    (h : e ∈ buildEdges pids rels) :
    ∃ r ∈ rels,
      pids.contains r.person1_id = true ∧ pids.contains r.person2_id = true ∧
        e = mkEdge r := by
  rcases mem_edgeFold_loop pids rels ([], []) e h with h₁ | h₂
  · simp at h₁
  · exact h₂

theorem mem_edges_calculateLayout {people : List Person} {rels : List Relationship}
    {e : Edge} (h : e ∈ (calculateLayout people rels).edges) :
    ∃ r ∈ rels,
      r.person1_id ∈ personIds people ∧ r.person2_id ∈ personIds people ∧
        e = mkEdge r := by
  unfold calculateLayout at h
  by_cases hp : people.isEmpty = true
  · rw [if_pos hp] at h; simp at h
  · rw [if_neg hp] at h
    rcases mem_buildEdges h with ⟨r, hr, h1, h2, he⟩
    exact ⟨r, hr, by simpa using h1, by simpa using h2, he⟩

/-! ## Concrete inputs used by counterexamples and witnesses -/

def c1People : List Person := [⟨"p", 10⟩, ⟨"a", 20⟩, ⟨"b", 30⟩]

def c1Rels : List Relationship :=
  [⟨"r1", "p", "b", .biological_parent⟩, ⟨"r2", "a", "b", .spouse⟩]

def c1wPeople : List Person := [⟨"wa", 10⟩, ⟨"wb", 20⟩]

def c1wRels : List Relationship := [⟨"s1", "wa", "wb", .spouse⟩]

def c2People : List Person := [⟨"r", 1⟩, ⟨"p", 2⟩, ⟨"c", 3⟩]

def c2Rels : List Relationship :=
  [⟨"e1", "r", "p", .biological_parent⟩, ⟨"e2", "r", "c", .biological_parent⟩,
   ⟨"e3", "p", "c", .biological_parent⟩]

def c3People : List Person := [⟨"A", 100⟩, ⟨"B", 50⟩]

def c3PresentRels : List Relationship := [⟨"e1", "A", "B", .biological_parent⟩]

def c3DanglingRel : Relationship := ⟨"e2", "X", "A", .biological_parent⟩

def c4People : List Person := [⟨"A4", 100⟩, ⟨"B4", 50⟩]

def c4Rels : List Relationship :=
  [⟨"f1", "A4", "B4", .biological_parent⟩, ⟨"f2", "B4", "A4", .biological_parent⟩]

def c6People : List Person := [⟨"B6", 20⟩, ⟨"A6", 10⟩, ⟨"D6", 40⟩, ⟨"C6", 30⟩]

def c6Rels : List Relationship :=
  [⟨"g1", "A6", "B6", .biological_parent⟩, ⟨"g2", "B6", "A6", .biological_parent⟩,
   ⟨"g3", "C6", "D6", .biological_parent⟩, ⟨"g4", "D6", "C6", .biological_parent⟩]

/-! ## C9 and C4, and the counterexamples for C1, C2, C3 and C6 -/

/-- C9: edge styling is a pure function of the relationship type:
biological parent edges are solid gray, the other parent subtypes dashed
gray, spouse and partner thick solid pink, ex-spouse and ex-partner dashed
pink, every sibling subtype solid in a color distinct from the parent and
spouse colors; the three categories cover the whole closed type (so the
defensive default branch, whose value is the biological style, is
unreachable); and exactly the spouse-category edges carry the fixed
`right`/`left` anchor handles, all other edges the default anchors. -/
theorem c9_edge_styles :
    (∀ r : Relationship,
      (isSpouseType r.relationship_type = true →
        (mkEdge r).sourceHandle = some "right" ∧ (mkEdge r).targetHandle = some "left") ∧
      (isSpouseType r.relationship_type = false →
        (mkEdge r).sourceHandle = none ∧ (mkEdge r).targetHandle = none)) ∧
    getEdgeStyle .biological_parent = ⟨"#6b7280", 2, none⟩ ∧
    getEdgeStyle .adoptive_parent = ⟨"#6b7280", 2, some "5,5"⟩ ∧
    getEdgeStyle .step_parent = ⟨"#6b7280", 2, some "5,5"⟩ ∧
    getEdgeStyle .foster_parent = ⟨"#6b7280", 2, some "5,5"⟩ ∧
    getEdgeStyle .guardian = ⟨"#6b7280", 2, some "5,5"⟩ ∧
    getEdgeStyle .spouse = ⟨"#ec4899", 3, none⟩ ∧
    getEdgeStyle .partner = ⟨"#ec4899", 3, none⟩ ∧
    getEdgeStyle .ex_spouse = ⟨"#ec4899", 2, some "5,5"⟩ ∧
    getEdgeStyle .ex_partner = ⟨"#ec4899", 2, some "5,5"⟩ ∧
    (∀ t : RelationshipType, isSiblingType t = true →
      getEdgeStyle t = ⟨"#3b82f6", 2, none⟩) ∧
    (getEdgeStyle .sibling).stroke ≠ (getEdgeStyle .biological_parent).stroke ∧
    (getEdgeStyle .sibling).stroke ≠ (getEdgeStyle .spouse).stroke ∧
    (∀ t : RelationshipType,
      isParentType t = true ∨ isSpouseType t = true ∨ isSiblingType t = true) := by
  refine ⟨?_, by decide, by decide, by decide, by decide, by decide, by decide,
    by decide, by decide, by decide, by decide, by decide, by decide, by decide⟩
  intro r
  constructor
  · intro h; constructor <;> simp [mkEdge, h]
  · intro h; constructor <;> simp [mkEdge, h]

/-- Witness for C9: the spouse-category handle clause, instantiated at a
concrete spouse relationship. -/
theorem c9_edge_styles_witness :
    (mkEdge ⟨"w9", "x9", "y9", .spouse⟩).sourceHandle = some "right" ∧
      (mkEdge ⟨"w9", "x9", "y9", .spouse⟩).targetHandle = some "left" :=
  (c9_edge_styles.1 ⟨"w9", "x9", "y9", .spouse⟩).1 (by decide)

/-- C4 (code bug): the engine is specified as side-effect free with
read-only borrowed inputs, but when no root candidate exists the source
evaluates `people.sort(...)`, and `Array.prototype.sort` reorders the
caller's array in place. On a two-person mutual-parent input whose array
is not already in birthday order, the array contents after the call differ
from the contents before it. -/
theorem c4_people_array_mutated :
    peopleAfterLayout c4People c4Rels ≠ c4People ∧
      rootsOf c4People c4Rels = [] ∧
      peopleAfterLayout c4People c4Rels =
        [⟨"B4", 50⟩, ⟨"A4", 100⟩] := by decide

/-- Counterexample to C1: a spouse-category relationship between `a` and
`b`, both present, whose endpoints end at different generations. `a` and
`p` are roots; `a` reaches `b` through the spouse branch at generation 0
and enqueues it, but the queue already holds `b` at generation 1 via the
parent `p`, and since the spouse branch does not revisit visited people,
the dequeue at generation 1 fixes `b` at 1 while `a` stays at 0. -/
theorem c1_spouse_coloc_counterexample :
    (⟨"r2", "a", "b", .spouse⟩ : Relationship) ∈ c1Rels ∧
      isSpouseType RelationshipType.spouse = true ∧
      "a" ∈ personIds c1People ∧ "b" ∈ personIds c1People ∧
      finalGen c1People c1Rels "a" = 0 ∧ finalGen c1People c1Rels "b" = 1 ∧
      finalGen c1People c1Rels "a" ≠ finalGen c1People c1Rels "b" := by decide

/-- Counterexample to C2: in the acyclic diamond `r → p`, `r → c`,
`p → c` (all present, roots nonempty, no fallback), BFS reaches `c` first
at generation 1 via `r`, the visited check discards the later visit at
generation 2 via `p`, and the final generations give
`generation(c) = generation(p) = 1`, violating
`generation(c) ≥ generation(p) + 1`. -/
theorem c2_monotonicity_counterexample :
    (⟨"e3", "p", "c", .biological_parent⟩ : Relationship) ∈ c2Rels ∧
      isParentType RelationshipType.biological_parent = true ∧
      "p" ∈ personIds c2People ∧ "c" ∈ personIds c2People ∧
      finalGen c2People c2Rels "p" = 1 ∧ finalGen c2People c2Rels "c" = 1 ∧
      ¬ finalGen c2People c2Rels "c" ≥ finalGen c2People c2Rels "p" + 1 := by decide

/-- Counterexample to C3: a dangling parent relationship (`X` is not in
the person list) is excluded from edge generation, but it still enters
`childToParents`, which removes `A` from the root candidates, triggers the
fallback start at the earliest birthday (`B`), and changes the generation
of `B` and the positions of both nodes. -/
theorem c3_dangling_no_effect_counterexample :
    "X" ∉ personIds c3People ∧
      rootsOf c3People c3PresentRels ≠ [] ∧
      rootsOf c3People (c3PresentRels ++ [c3DanglingRel]) = [] ∧
      finalGen c3People c3PresentRels "B" = 1 ∧
      finalGen c3People (c3PresentRels ++ [c3DanglingRel]) "B" = 0 ∧
      (calculateLayout c3People (c3PresentRels ++ [c3DanglingRel])).nodes ≠
        (calculateLayout c3People c3PresentRels).nodes := by decide

/-- Counterexample to C6: with no root candidate the in-place sort
reorders the people array by birthday, and the generation rows follow the
sorted order rather than the input iteration order. Here the generation-0
members in input iteration order are `A6, D6, C6`, so the claim places
`D6` (0-based index 1 of a 3-member row) at
`x = -(3-1)/2 * 250 + 1 * 250 = 0`, but the produced node for `D6` has
`x = 250` (it sits at index 2 of the row in sorted order). -/
theorem c6_input_order_counterexample :
    (c6People.filter (fun p => finalGen c6People c6Rels p.id == 0)).map
        (fun p => p.id) = ["A6", "D6", "C6"] ∧
      ((calculateLayout c6People c6Rels).nodes.filter
          (fun n => n.id == "D6")).map (fun n => n.x) = [250] ∧
      ((250 : Int) ≠
        -((3 : Int) - 1) * HORIZONTAL_SPACING / 2 + 1 * HORIZONTAL_SPACING) := by decide

/-! ## C2 (amended), C10, C3 (amended) -/

/-- C2 amended: what the traversal guarantees is per-visit, not global —
when it dequeues an unvisited person `id` at generation `gen` (this is the
loop body, as the first conjunct records), every recorded child of `id`
that is a present person is enqueued at generation `gen + 1`, one
generation below that visit. The global inequality
`generation(c) ≥ generation(p) + 1` fails even on acyclic data because
the visited check discards later, deeper visits of a child already
reached along a shorter path. -/
theorem c2_child_enqueued_one_below (rels : List Relationship) (pids : List String)
    (id : String) (gen : Nat) (rest : List (String × Nat))
    (v : String → Bool) (g : String → Option Nat) (fuel : Nat)
    (hvis : v id = false) :
    bfsAux rels pids (fuel + 1) ⟨(id, gen) :: rest, v, g⟩ =
      bfsAux rels pids fuel (bfsStep rels pids id gen rest ⟨(id, gen) :: rest, v, g⟩) ∧
    ∀ c ∈ parentToChildren rels id, pids.contains c = true →
      (c, gen + 1) ∈ (bfsStep rels pids id gen rest ⟨(id, gen) :: rest, v, g⟩).queue := by
  refine ⟨rfl, ?_⟩
  intro c hc hpc
  simp only [bfsStep, hvis]
  simp only [Bool.false_eq_true, if_false, List.mem_append, List.mem_map,
    List.mem_filter]
  exact Or.inl (Or.inr ⟨c, ⟨hc, hpc⟩, rfl⟩)

/-- Witness for the amended C2, on a single parent relationship processed
from the initial state: the child is enqueued at generation 1. -/
theorem c2_child_enqueued_witness :
    ("wc", 1) ∈ (bfsStep [⟨"h1", "wp", "wc", .biological_parent⟩] ["wp", "wc"]
      "wp" 0 [] ⟨[("wp", 0)], fun _ => false, fun _ => none⟩).queue :=
  (c2_child_enqueued_one_below [⟨"h1", "wp", "wc", .biological_parent⟩]
    ["wp", "wc"] "wp" 0 [] (fun _ => false) (fun _ => none) 0 rfl).2
    "wc" (by decide) (by decide)

/-- C10: every emitted edge carries the relationship's id, its source is
the relationship's `person1_id` and its target is its `person2_id` (so a
parent-category edge always points from the parent, `person1`, to the
child), and a spouse-category edge always puts the `right` handle on the
source — person1's node — and the `left` handle on the target,
independent of the two nodes' positions. -/
theorem c10_edge_orientation (people : List Person) (rels : List Relationship) :
    ∀ e ∈ (calculateLayout people rels).edges, ∃ r ∈ rels,
      e.id = r.id ∧ e.source = r.person1_id ∧ e.target = r.person2_id ∧
      (isSpouseType r.relationship_type = true →
        e.sourceHandle = some "right" ∧ e.targetHandle = some "left") := by
  intro e he
  rcases mem_edges_calculateLayout he with ⟨r, hr, _, _, rfl⟩
  refine ⟨r, hr, rfl, rfl, rfl, ?_⟩
  intro h
  constructor <;> simp [mkEdge, h]

/-- Witness for C10, on a one-spouse-relationship input. -/
theorem c10_edge_orientation_witness :
    ∃ r ∈ [(⟨"s10", "x10", "y10", .spouse⟩ : Relationship)],
      (mkEdge ⟨"s10", "x10", "y10", .spouse⟩).id = r.id ∧
      (mkEdge ⟨"s10", "x10", "y10", .spouse⟩).source = r.person1_id ∧
      (mkEdge ⟨"s10", "x10", "y10", .spouse⟩).target = r.person2_id ∧
      (isSpouseType r.relationship_type = true →
        (mkEdge ⟨"s10", "x10", "y10", .spouse⟩).sourceHandle = some "right" ∧
        (mkEdge ⟨"s10", "x10", "y10", .spouse⟩).targetHandle = some "left") :=
  c10_edge_orientation [⟨"x10", 1⟩, ⟨"y10", 2⟩]
    [⟨"s10", "x10", "y10", .spouse⟩] (mkEdge ⟨"s10", "x10", "y10", .spouse⟩)
    (by decide)

/-- C3 amended: a relationship with a missing endpoint is excluded from
edge generation and raises no error — every output edge originates from a
relationship whose two endpoint ids are both in the person list. The rest
of the original claim is false: such a relationship still enters the
adjacency maps built before the presence check, so it can remove a root
candidate and thereby change generation assignment (see the
counterexample). -/
theorem c3_dangling_excluded_from_edges (people : List Person)
    (rels : List Relationship) :
    ∀ e ∈ (calculateLayout people rels).edges, ∃ r ∈ rels,
      r.person1_id ∈ personIds people ∧ r.person2_id ∈ personIds people ∧
        e = mkEdge r := by
  intro e he
  exact mem_edges_calculateLayout he

/-- Witness for the amended C3: on an input with one fully-present and one
dangling relationship, the only edge originates from the present one. -/
theorem c3_dangling_excluded_witness :
    ∃ r ∈ [(⟨"w3p", "u3", "v3", .biological_parent⟩ : Relationship),
           (⟨"w3d", "u3", "gone3", .biological_parent⟩ : Relationship)],
      r.person1_id ∈ personIds [⟨"u3", 1⟩, ⟨"v3", 2⟩] ∧
      r.person2_id ∈ personIds [⟨"u3", 1⟩, ⟨"v3", 2⟩] ∧
        mkEdge ⟨"w3p", "u3", "v3", .biological_parent⟩ = mkEdge r :=
  c3_dangling_excluded_from_edges [⟨"u3", 1⟩, ⟨"v3", 2⟩]
    [⟨"w3p", "u3", "v3", .biological_parent⟩,
     ⟨"w3d", "u3", "gone3", .biological_parent⟩]
    (mkEdge ⟨"w3p", "u3", "v3", .biological_parent⟩) (by decide)

/-! ## Termination of the BFS loop (C8) -/

theorem parentToChildren_length_le (rels : List Relationship) (p : String) :
    (parentToChildren rels p).length ≤ rels.length := by
  unfold parentToChildren
  rw [List.length_map]
  exact List.length_filter_le _ _

theorem spousesOf_loop_length_le (x : String) :
    ∀ (rels : List Relationship) (acc : List String),
      (rels.foldl
        (fun acc r =>
          if isSpouseType r.relationship_type then
            (if r.person1_id == x then acc ++ [r.person2_id] else acc) ++
              (if r.person2_id == x then [r.person1_id] else [])
          else acc)
        acc).length ≤ acc.length + 2 * rels.length := by
  intro rels
  induction rels with
  | nil => intro acc; simp
  | cons r rs ih =>
      intro acc
      rw [List.foldl_cons]
      refine le_trans (ih _) ?_
      have hstep :
          (if isSpouseType r.relationship_type then
            (if r.person1_id == x then acc ++ [r.person2_id] else acc) ++
              (if r.person2_id == x then [r.person1_id] else [])
          else acc).length ≤ acc.length + 2 := by
        split
        · rw [List.length_append]
          split <;> split <;> simp
        · omega
      simp only [List.length_cons]
      omega

theorem spousesOf_length_le (rels : List Relationship) (x : String) :
    (spousesOf rels x).length ≤ 2 * rels.length := by
  have := spousesOf_loop_length_le x rels []
  simpa [spousesOf] using this

/-- The number of person ids not yet visited. -/
def unvisitedCount (pids : List String) (v : String → Bool) : Nat :=
  (pids.dedup.filter (fun x => !v x)).length

theorem filter_not_update_length :
    ∀ {l : List String}, l.Nodup → ∀ {id : String}, id ∈ l →
      ∀ {v : String → Bool}, v id = false →
      (l.filter (fun x => !(if x = id then true else v x))).length + 1 =
        (l.filter (fun x => !v x)).length := by
  intro l
  induction l with
  | nil => intro _ id hmem; exact absurd hmem (List.not_mem_nil id)
  | cons a l ih =>
      intro hn id hmem v hv
      have hna : a ∉ l := (List.nodup_cons.mp hn).1
      have hnl : l.Nodup := (List.nodup_cons.mp hn).2
      by_cases hai : a = id
      · subst hai
        have hgoal₁ : List.filter (fun x => !(if x = a then true else v x)) (a :: l) =
            List.filter (fun x => !v x) l := by
          rw [List.filter_cons]
          have hcond : (!(if a = a then true else v a)) = false := by simp
          rw [hcond]
          rw [if_neg (by simp)]
          apply List.filter_congr
          intro x hx
          have hxa : x ≠ a := fun h => hna (h ▸ hx)
          simp [hxa]
        have hgoal₂ : List.filter (fun x => !v x) (a :: l) =
            a :: List.filter (fun x => !v x) l := by
          rw [List.filter_cons]
          rw [if_pos (by simp [hv])]
        rw [hgoal₁, hgoal₂]
        simp
      · have hmem₂ : id ∈ l := by
          rcases List.mem_cons.mp hmem with h | h
          · exact absurd h.symm hai
          · exact h
        have hrec := ih hnl hmem₂ hv
        rw [List.filter_cons, List.filter_cons]
        have hpa : (!(if a = id then true else v a)) = (!v a) := by simp [hai]
        rw [hpa]
        by_cases hva : v a = true
        · rw [if_neg (by simp [hva]), if_neg (by simp [hva])]
          exact hrec
        · simp only [Bool.not_eq_true] at hva
          rw [if_pos (by simp [hva]), if_pos (by simp [hva])]
          simp only [List.length_cons]
          omega

theorem unvisitedCount_update {pids : List String} {id : String}
    (hmem : pids.contains id = true) {v : String → Bool} (hv : v id = false) :
    unvisitedCount pids (fun x => if x = id then true else v x) + 1 =
      unvisitedCount pids v := by
  have hid : id ∈ pids.dedup := List.mem_dedup.mpr (by simpa using hmem)
  exact filter_not_update_length (List.nodup_dedup pids) hid hv

/-- The termination measure of the BFS loop. -/
def bfsMeasure (rels : List Relationship) (pids : List String) (s : BfsState) : Nat :=
  s.queue.length + unvisitedCount pids s.visited * (1 + 3 * rels.length)

theorem bfsAux_drains (rels : List Relationship) (pids : List String) :
    ∀ (fuel : Nat) (s : BfsState),
      (∀ e ∈ s.queue, pids.contains e.1 = true) →
      bfsMeasure rels pids s ≤ fuel →
      (bfsAux rels pids fuel s).queue = [] := by
  intro fuel
  induction fuel with
  | zero =>
      intro s hq hm
      unfold bfsMeasure at hm
      have hlen : s.queue.length = 0 := by omega
      have hnil : s.queue = [] := List.length_eq_zero.mp hlen
      simpa [bfsAux] using hnil
  | succ n ih =>
      intro s hq hm
      obtain ⟨q, v, g⟩ := s
      cases q with
      | nil => rfl
      | cons hd rest =>
          obtain ⟨id, gen⟩ := hd
          show (bfsAux rels pids n
            (bfsStep rels pids id gen rest ⟨(id, gen) :: rest, v, g⟩)).queue = []
          have hidmem : pids.contains id = true := hq (id, gen) (List.mem_cons_self _ _)
          by_cases hv : v id = true
          · have hqs : (bfsStep rels pids id gen rest ⟨(id, gen) :: rest, v, g⟩).queue
                = rest := by simp [bfsStep, hv]
            have hvs : (bfsStep rels pids id gen rest ⟨(id, gen) :: rest, v, g⟩).visited
                = v := by simp [bfsStep, hv]
            apply ih
            · intro e he
              rw [hqs] at he
              exact hq e (List.mem_cons_of_mem _ he)
            · unfold bfsMeasure at hm ⊢
              rw [hqs, hvs]
              simp only [List.length_cons] at hm
              omega
          · have hv₀ : v id = false := by simpa using hv
            have hqs : (bfsStep rels pids id gen rest ⟨(id, gen) :: rest, v, g⟩).queue
                = rest ++
                  ((parentToChildren rels id).filter (fun c => pids.contains c)).map
                    (fun c => (c, gen + 1)) ++
                  ((spousesOf rels id).filter
                    (fun sp => pids.contains sp &&
                      !(if sp = id then true else v sp))).map
                    (fun sp => (sp, gen)) := by
              simp [bfsStep, hv₀]
            have hvs : (bfsStep rels pids id gen rest ⟨(id, gen) :: rest, v, g⟩).visited
                = fun x => if x = id then true else v x := by
              simp [bfsStep, hv₀]
            apply ih
            · intro e he
              rw [hqs] at he
              rcases List.mem_append.mp he with he₁ | he₂
              · rcases List.mem_append.mp he₁ with he₃ | he₄
                · exact hq e (List.mem_cons_of_mem _ he₃)
                · rcases List.mem_map.mp he₄ with ⟨c, hc, rfl⟩
                  exact (List.mem_filter.mp hc).2
              · rcases List.mem_map.mp he₂ with ⟨sp, hsp, rfl⟩
                have := (List.mem_filter.mp hsp).2
                exact ((Bool.and_eq_true _ _).mp this).1
            · unfold bfsMeasure at hm ⊢
              rw [hqs, hvs]
              have hu := unvisitedCount_update hidmem hv₀
              have hK : unvisitedCount pids v * (1 + 3 * rels.length) =
                  unvisitedCount pids (fun x => if x = id then true else v x) *
                    (1 + 3 * rels.length) + (1 + 3 * rels.length) := by
                rw [← hu]; ring
              have hc₁ : (((parentToChildren rels id).filter
                  (fun c => pids.contains c)).map (fun c => (c, gen + 1))).length ≤
                    rels.length := by
                rw [List.length_map]
                exact le_trans (List.length_filter_le _ _)
                  (parentToChildren_length_le rels id)
              have hc₂ : (((spousesOf rels id).filter
                  (fun sp => pids.contains sp &&
                    !(if sp = id then true else v sp))).map
                      (fun sp => (sp, gen))).length ≤ 2 * rels.length := by
                rw [List.length_map]
                exact le_trans (List.length_filter_le _ _)
                  (spousesOf_length_le rels id)
              rw [List.length_append, List.length_append]
              simp only [List.length_cons] at hm
              omega

theorem startPeople_mem {people : List Person} {rels : List Relationship}
    {p : Person} (h : p ∈ startPeople people rels) : p ∈ people := by
  unfold startPeople at h
  split at h
  · have h₁ : p ∈ sortedByBirthday people := List.mem_of_mem_take h
    exact (List.perm_insertionSort birthdayLe people).mem_iff.mp h₁
  · exact (List.mem_filter.mp h).1

/-- With the computed fuel, the BFS queue is completely drained. -/
theorem bfsFinal_queue_nil (people : List Person) (rels : List Relationship) :
    (bfsFinal people rels).queue = [] := by
  unfold bfsFinal
  apply bfsAux_drains
  · intro e he
    unfold bfsInit at he
    rcases List.mem_map.mp he with ⟨p, hp, rfl⟩
    have : p ∈ people := startPeople_mem hp
    simp [personIds]
    exact ⟨p, this, rfl⟩
  · unfold bfsMeasure bfsInit bfsFuel
    have h₁ : ((startPeople people rels).map (fun p => (p.id, (0 : Nat)))).length =
        (startPeople people rels).length := List.length_map _ _
    have h₂ : unvisitedCount (personIds people) (fun _ => false) =
        (personIds people).dedup.length := by
      simp [unvisitedCount]
    simp only [h₁, h₂]
    omega

/-! ## A generic invariant principle for the BFS loop -/

theorem bfsAux_invariant (rels : List Relationship) (pids : List String)
    (P : BfsState → Prop)
    (hstep : ∀ (id : String) (gen : Nat) (rest : List (String × Nat)) (s : BfsState),
      s.queue = (id, gen) :: rest → P s → P (bfsStep rels pids id gen rest s)) :
    ∀ (fuel : Nat) (s : BfsState), P s → P (bfsAux rels pids fuel s) := by
  intro fuel
  induction fuel with
  | zero => intro s hs; exact hs
  | succ n ih =>
      intro s hs
      obtain ⟨q, v, g⟩ := s
      cases q with
      | nil => exact hs
      | cons hd rest =>
          obtain ⟨id, gen⟩ := hd
          exact ih _ (hstep id gen rest ⟨(id, gen) :: rest, v, g⟩ rfl hs)

/-! ## The generations map only holds visited or queued ids (C5) -/

/-- Every id holding a generation entry is either already visited or still
queued; when the queue is empty this means unvisited ids have no entry. -/
def GensCovered (s : BfsState) : Prop :=
  ∀ x, s.gens x ≠ none → s.visited x = true ∨ ∃ gg, (x, gg) ∈ s.queue

theorem bfsStep_gensCovered (rels : List Relationship) (pids : List String)
    (id : String) (gen : Nat) (rest : List (String × Nat))
    (v : String → Bool) (g : String → Option Nat)
    (h : GensCovered ⟨(id, gen) :: rest, v, g⟩) :
    GensCovered (bfsStep rels pids id gen rest ⟨(id, gen) :: rest, v, g⟩) := by
  by_cases hv : v id = true
  · have hqs : (bfsStep rels pids id gen rest ⟨(id, gen) :: rest, v, g⟩).queue
        = rest := by simp [bfsStep, hv]
    have hvs : (bfsStep rels pids id gen rest ⟨(id, gen) :: rest, v, g⟩).visited
        = v := by simp [bfsStep, hv]
    have hgs : (bfsStep rels pids id gen rest ⟨(id, gen) :: rest, v, g⟩).gens
        = g := by simp [bfsStep, hv]
    intro x hx
    rw [hgs] at hx
    rw [hvs, hqs]
    rcases h x hx with h₁ | ⟨gg, hmem⟩
    · exact Or.inl h₁
    · rcases List.mem_cons.mp hmem with heq | hmem₂
      · have hxid : x = id := congrArg Prod.fst heq
        exact Or.inl (hxid ▸ hv)
      · exact Or.inr ⟨gg, hmem₂⟩
  · have hv₀ : v id = false := by simpa using hv
    have hqs : (bfsStep rels pids id gen rest ⟨(id, gen) :: rest, v, g⟩).queue
        = rest ++
          ((parentToChildren rels id).filter (fun c => pids.contains c)).map
            (fun c => (c, gen + 1)) ++
          ((spousesOf rels id).filter
            (fun sp => pids.contains sp &&
              !(if sp = id then true else v sp))).map
            (fun sp => (sp, gen)) := by
      simp [bfsStep, hv₀]
    have hvs : (bfsStep rels pids id gen rest ⟨(id, gen) :: rest, v, g⟩).visited
        = fun x => if x = id then true else v x := by
      simp [bfsStep, hv₀]
    have hgs : (bfsStep rels pids id gen rest ⟨(id, gen) :: rest, v, g⟩).gens
        = fun x =>
          if ((spousesOf rels id).filter
              (fun sp => pids.contains sp && !(if sp = id then true else v sp))).contains x
          then some gen
          else if x = id then some (max ((g id).getD 0) gen) else g x := by
      simp [bfsStep, hv₀]
    intro x hx
    rw [hvs, hqs]
    by_cases hsp : ((spousesOf rels id).filter
        (fun sp => pids.contains sp && !(if sp = id then true else v sp))).contains x = true
    · refine Or.inr ⟨gen, ?_⟩
      refine List.mem_append.mpr (Or.inr ?_)
      exact List.mem_map.mpr ⟨x, by simpa using hsp, rfl⟩
    · rw [hgs] at hx
      replace hx : (if ((spousesOf rels id).filter
          (fun sp => pids.contains sp && !(if sp = id then true else v sp))).contains x = true
          then some gen
          else if x = id then some (max ((g id).getD 0) gen) else g x) ≠ none := hx
      rw [if_neg hsp] at hx
      by_cases hxi : x = id
      · exact Or.inl (by simp [hxi])
      · rw [if_neg hxi] at hx
        rcases h x hx with h₁ | ⟨gg, hmem⟩
        · refine Or.inl ?_
          show (if x = id then true else v x) = true
          rw [if_neg hxi]
          exact h₁
        · rcases List.mem_cons.mp hmem with heq | hmem₂
          · exact absurd (congrArg Prod.fst heq) hxi
          · exact Or.inr ⟨gg, List.mem_append.mpr (Or.inl (List.mem_append.mpr (Or.inl hmem₂)))⟩

theorem bfsFinal_gensCovered (people : List Person) (rels : List Relationship) :
    GensCovered (bfsFinal people rels) := by
  unfold bfsFinal
  apply bfsAux_invariant
  · intro id gen rest s hq hP
    obtain ⟨q, v, g⟩ := s
    cases hq
    exact bfsStep_gensCovered rels (personIds people) id gen rest v g hP
  · intro x hx
    exact absurd rfl hx

theorem unvisited_finalGen_zero {people : List Person} {rels : List Relationship}
    {x : String} (h : (bfsFinal people rels).visited x = false) :
    finalGen people rels x = 0 := by
  have hcov := bfsFinal_gensCovered people rels x
  have hqnil := bfsFinal_queue_nil people rels
  by_cases hg : (bfsFinal people rels).gens x = none
  · unfold finalGen
    rw [hg]
    rfl
  · rcases hcov hg with h₁ | ⟨gg, hmem⟩
    · rw [h₁] at h; exact absurd h (by simp)
    · rw [hqnil] at hmem
      exact absurd hmem (List.not_mem_nil _)

/-! ## Root selection, fallback and disconnected default (C5) -/

theorem startPeople_fallback {people : List Person} {rels : List Relationship}
    (hne : people ≠ []) (hroots : rootsOf people rels = []) :
    ∃ p, startPeople people rels = [p] ∧ p ∈ people ∧
      ∀ q ∈ people, p.birthday ≤ q.birthday := by
  haveI : IsTotal Person birthdayLe := ⟨fun a b => Int.le_total a.birthday b.birthday⟩
  haveI : IsTrans Person birthdayLe := ⟨fun _ _ _ hab hbc => le_trans hab hbc⟩
  have hsorted : List.Sorted birthdayLe (sortedByBirthday people) :=
    List.sorted_insertionSort birthdayLe people
  have hperm : (sortedByBirthday people).Perm people :=
    List.perm_insertionSort birthdayLe people
  have hlen : (sortedByBirthday people).length = people.length := hperm.length_eq
  have hne₂ : sortedByBirthday people ≠ [] := by
    intro hcon
    apply hne
    rw [← List.length_eq_zero, ← hlen, hcon]
    rfl
  obtain ⟨p, tl, hcons⟩ := List.exists_cons_of_ne_nil hne₂
  refine ⟨p, ?_, ?_, ?_⟩
  · unfold startPeople
    rw [if_pos (by simp [hroots])]
    rw [hcons]
    rfl
  · exact hperm.mem_iff.mp (hcons ▸ List.mem_cons_self p tl)
  · intro q hq
    have hq₂ : q ∈ sortedByBirthday people := hperm.mem_iff.mpr hq
    rw [hcons] at hq₂ hsorted
    rcases List.mem_cons.mp hq₂ with rfl | hq₃
    · exact le_refl _
    · exact (List.pairwise_cons.mp hsorted).1 q hq₃

/-- C5: the traversal starts at generation 0 from exactly the root
candidates (people with no recorded parent entry) when any exist; when
none exist it starts, still at generation 0, from a single person whose
birthday is minimal over the input; and every person the traversal never
visited is assigned generation 0. -/
theorem c5_root_selection_and_default (people : List Person) (rels : List Relationship) :
    (rootsOf people rels ≠ [] →
      (bfsInit people rels).queue =
        (rootsOf people rels).map (fun p => (p.id, 0))) ∧
    (people ≠ [] → rootsOf people rels = [] →
      ∃ p, startPeople people rels = [p] ∧ p ∈ people ∧
        (∀ q ∈ people, p.birthday ≤ q.birthday) ∧
        (bfsInit people rels).queue = [(p.id, 0)]) ∧
    (∀ p ∈ people, (bfsFinal people rels).visited p.id = false →
      finalGen people rels p.id = 0) := by
  refine ⟨?_, ?_, ?_⟩
  · intro hroots
    unfold bfsInit startPeople
    rw [if_neg (by simp [hroots])]
  · intro hne hroots
    obtain ⟨p, hstart, hmem, hmin⟩ := startPeople_fallback hne hroots
    refine ⟨p, hstart, hmem, hmin, ?_⟩
    unfold bfsInit
    rw [hstart]
    rfl
  · intro p _ hvis
    exact unvisited_finalGen_zero hvis

def c5wPeople1 : List Person := [⟨"w5a", 5⟩, ⟨"w5d", 6⟩]

def c5wRels1 : List Relationship := [⟨"k1", "gone5", "w5d", .biological_parent⟩]

def c5wPeople2 : List Person := [⟨"w5x", 9⟩, ⟨"w5y", 3⟩]

def c5wRels2 : List Relationship :=
  [⟨"k2", "w5x", "w5y", .biological_parent⟩, ⟨"k3", "w5y", "w5x", .biological_parent⟩]

/-- Witness for C5: on an input with one root and one person reachable
from nobody (its only parent record is dangling), the queue starts from
the root at generation 0 and the unreached person defaults to generation
0; and on a rootless input the single start person has the minimal
birthday. -/
theorem c5_root_selection_witness :
    ((bfsInit c5wPeople1 c5wRels1).queue = [("w5a", 0)]) ∧
    finalGen c5wPeople1 c5wRels1 "w5d" = 0 ∧
    (∃ p, startPeople c5wPeople2 c5wRels2 = [p] ∧ p ∈ c5wPeople2 ∧
      (∀ q ∈ c5wPeople2, p.birthday ≤ q.birthday) ∧
      (bfsInit c5wPeople2 c5wRels2).queue = [(p.id, 0)]) := by
  refine ⟨?_, ?_, ?_⟩
  · have h := (c5_root_selection_and_default c5wPeople1 c5wRels1).1 (by decide)
    rw [h]; decide
  · exact (c5_root_selection_and_default c5wPeople1 c5wRels1).2.2
      ⟨"w5d", 6⟩ (by decide) (by decide)
  · exact (c5_root_selection_and_default c5wPeople2 c5wRels2).2.1
      (by decide) (by decide)

/-! ## Root candidates keep generation 0 (C1) -/

/-- The FIFO discipline on the initial phase: some prefix of the queue
consists of generation-0 entries, every unvisited root still has its
generation-0 entry in that prefix, a root's recorded generation can only
be 0, and every visited id has a generation entry. -/
def RootsInv (people : List Person) (rels : List Relationship) (s : BfsState) : Prop :=
  (∃ n, n ≤ s.queue.length ∧
    (∀ e ∈ s.queue.take n, e.2 = 0) ∧
    (∀ p ∈ rootsOf people rels,
      s.visited p.id = true ∨ (p.id, (0 : Nat)) ∈ s.queue.take n)) ∧
  (∀ p ∈ rootsOf people rels, s.gens p.id = none ∨ s.gens p.id = some 0) ∧
  (∀ x, s.visited x = true → s.gens x ≠ none)

theorem bfsStep_rootsInv (people : List Person) (rels : List Relationship)
    (pids : List String) (id : String) (gen : Nat) (rest : List (String × Nat))
    (v : String → Bool) (g : String → Option Nat)
    (h : RootsInv people rels ⟨(id, gen) :: rest, v, g⟩) :
    RootsInv people rels (bfsStep rels pids id gen rest ⟨(id, gen) :: rest, v, g⟩) := by
  obtain ⟨⟨n, hnle, htake0, hrootq⟩, hrootg, hvg⟩ := h
  simp only [List.length_cons] at hnle
  replace htake0 : ∀ e ∈ ((id, gen) :: rest).take n, e.2 = 0 := htake0
  replace hrootq : ∀ p ∈ rootsOf people rels,
      v p.id = true ∨ (p.id, (0 : Nat)) ∈ ((id, gen) :: rest).take n := hrootq
  replace hrootg : ∀ p ∈ rootsOf people rels,
      g p.id = none ∨ g p.id = some 0 := hrootg
  replace hvg : ∀ x, v x = true → g x ≠ none := hvg
  by_cases hv : v id = true
  · have hqs : (bfsStep rels pids id gen rest ⟨(id, gen) :: rest, v, g⟩).queue
        = rest := by simp [bfsStep, hv]
    have hvs : (bfsStep rels pids id gen rest ⟨(id, gen) :: rest, v, g⟩).visited
        = v := by simp [bfsStep, hv]
    have hgs : (bfsStep rels pids id gen rest ⟨(id, gen) :: rest, v, g⟩).gens
        = g := by simp [bfsStep, hv]
    refine ⟨⟨n - 1, ?_, ?_, ?_⟩, ?_, ?_⟩
    · rw [hqs]; omega
    · intro e he
      rw [hqs] at he
      apply htake0
      cases n with
      | zero => exact absurd he (by simp)
      | succ m =>
          rw [List.take_succ_cons]
          exact List.mem_cons_of_mem _ (by simpa using he)
    · intro p hp
      rw [hvs, hqs]
      rcases hrootq p hp with h₁ | h₂
      · exact Or.inl h₁
      · cases n with
        | zero => exact absurd h₂ (by simp)
        | succ m =>
            rw [List.take_succ_cons] at h₂
            rcases List.mem_cons.mp h₂ with heq | hmem
            · have hpi : p.id = id := congrArg Prod.fst heq
              exact Or.inl (hpi ▸ hv)
            · exact Or.inr (by simpa using hmem)
    · intro p hp
      rw [hgs]
      exact hrootg p hp
    · intro x hx
      rw [hvs] at hx
      rw [hgs]
      exact hvg x hx
  · have hv₀ : v id = false := by simpa using hv
    have hqs : (bfsStep rels pids id gen rest ⟨(id, gen) :: rest, v, g⟩).queue
        = rest ++
          ((parentToChildren rels id).filter (fun c => pids.contains c)).map
            (fun c => (c, gen + 1)) ++
          ((spousesOf rels id).filter
            (fun sp => pids.contains sp &&
              !(if sp = id then true else v sp))).map
            (fun sp => (sp, gen)) := by
      simp [bfsStep, hv₀]
    have hvs : ∀ x, (bfsStep rels pids id gen rest ⟨(id, gen) :: rest, v, g⟩).visited x
        = if x = id then true else v x := by
      intro x
      simp [bfsStep, hv₀]
    have hgs : ∀ x, (bfsStep rels pids id gen rest ⟨(id, gen) :: rest, v, g⟩).gens x
        = if ((spousesOf rels id).filter
              (fun sp => pids.contains sp && !(if sp = id then true else v sp))).contains x
          then some gen
          else if x = id then some (max ((g id).getD 0) gen) else g x := by
      intro x
      simp [bfsStep, hv₀]
    have hgen0 : ∀ p ∈ rootsOf people rels, v p.id = false → gen = 0 ∧ n ≠ 0 := by
      intro p hp hvp
      rcases hrootq p hp with h₁ | h₂
      · rw [hvp] at h₁; exact absurd h₁ (by simp)
      · cases n with
        | zero => exact absurd h₂ (by simp)
        | succ m =>
            refine ⟨?_, by omega⟩
            have hhead : ((id, gen) : String × Nat) ∈
                ((id, gen) :: rest).take (m + 1) := by
              rw [List.take_succ_cons]
              exact List.mem_cons_self _ _
            exact htake0 _ hhead
    refine ⟨⟨n - 1, ?_, ?_, ?_⟩, ?_, ?_⟩
    · rw [hqs]
      simp only [List.length_append]
      omega
    · intro e he
      rw [hqs] at he
      have hrest : e ∈ rest.take (n - 1) := by
        have hle₁ : n - 1 ≤ rest.length := by omega
        rw [List.take_append_of_le_length
            (by rw [List.length_append]; omega),
          List.take_append_of_le_length hle₁] at he
        exact he
      apply htake0
      cases n with
      | zero => exact absurd hrest (by simp)
      | succ m =>
          rw [List.take_succ_cons]
          exact List.mem_cons_of_mem _ (by simpa using hrest)
    · intro p hp
      rw [hvs p.id, hqs]
      rcases hrootq p hp with h₁ | h₂
      · refine Or.inl ?_
        by_cases hpi : p.id = id
        · rw [if_pos hpi]
        · rw [if_neg hpi]; exact h₁
      · cases n with
        | zero => exact absurd h₂ (by simp)
        | succ m =>
            rw [List.take_succ_cons] at h₂
            rcases List.mem_cons.mp h₂ with heq | hmem
            · have hpi : p.id = id := congrArg Prod.fst heq
              exact Or.inl (by rw [if_pos hpi])
            · refine Or.inr ?_
              have hle₁ : m ≤ rest.length := by omega
              rw [List.take_append_of_le_length
                  (by rw [List.length_append]; omega),
                List.take_append_of_le_length (by simpa using hle₁)]
              simpa using hmem
    · intro p hp
      rw [hgs p.id]
      by_cases hsp : ((spousesOf rels id).filter
          (fun sp => pids.contains sp && !(if sp = id then true else v sp))).contains p.id = true
      · rw [if_pos hsp]
        have hparts : p.id ∈ spousesOf rels id ∧ p.id ∈ pids ∧
            ¬p.id = id ∧ v p.id = false := by simpa using hsp
        have hg0 := (hgen0 p hp hparts.2.2.2).1
        rw [hg0]
        exact Or.inr rfl
      · rw [if_neg hsp]
        by_cases hpi : p.id = id
        · rw [if_pos hpi]
          have hvp : v p.id = false := hpi ▸ hv₀
          have hg0 := (hgen0 p hp hvp).1
          have hgid : (g id).getD 0 = 0 := by
            rcases hrootg p hp with h₁ | h₁
            · rw [hpi] at h₁; rw [h₁]; rfl
            · rw [hpi] at h₁; rw [h₁]; rfl
          rw [hg0, hgid]
          exact Or.inr rfl
        · rw [if_neg hpi]
          exact hrootg p hp
    · intro x hx
      rw [hvs x] at hx
      rw [hgs x]
      by_cases hsp : ((spousesOf rels id).filter
          (fun sp => pids.contains sp && !(if sp = id then true else v sp))).contains x = true
      · rw [if_pos hsp]
        exact Option.some_ne_none _
      · rw [if_neg hsp]
        by_cases hxi : x = id
        · rw [if_pos hxi]
          exact Option.some_ne_none _
        · rw [if_neg hxi]
          rw [if_neg hxi] at hx
          exact hvg x hx

theorem bfsFinal_rootsInv (people : List Person) (rels : List Relationship)
    (hne : rootsOf people rels ≠ []) :
    RootsInv people rels (bfsFinal people rels) := by
  unfold bfsFinal
  apply bfsAux_invariant
  · intro id gen rest s hq hP
    obtain ⟨q, v, g⟩ := s
    cases hq
    exact bfsStep_rootsInv people rels (personIds people) id gen rest v g hP
  · have hq : (bfsInit people rels).queue =
        (rootsOf people rels).map (fun p => (p.id, 0)) := by
      unfold bfsInit startPeople
      rw [if_neg (by simp [hne])]
    have htakeall : ((rootsOf people rels).map (fun p => (p.id, (0 : Nat)))).take
        (rootsOf people rels).length =
          (rootsOf people rels).map (fun p => (p.id, 0)) := by
      rw [← List.length_map (rootsOf people rels) (fun p => (p.id, (0 : Nat)))]
      exact List.take_length _
    refine ⟨⟨(rootsOf people rels).length, ?_, ?_, ?_⟩, ?_, ?_⟩
    · rw [hq, List.length_map]
    · intro e he
      rw [hq, htakeall] at he
      rcases List.mem_map.mp he with ⟨p, _, rfl⟩
      rfl
    · intro p hp
      refine Or.inr ?_
      rw [hq, htakeall]
      exact List.mem_map.mpr ⟨p, hp, rfl⟩
    · intro p _
      exact Or.inl rfl
    · intro x hx
      exact absurd hx (by simp [bfsInit])

theorem root_finalGen_zero {people : List Person} {rels : List Relationship}
    {p : Person} (hp : p ∈ rootsOf people rels) :
    finalGen people rels p.id = 0 := by
  have hne : rootsOf people rels ≠ [] := List.ne_nil_of_mem hp
  obtain ⟨⟨n, _, _, hrootq⟩, hrootg, hvg⟩ := bfsFinal_rootsInv people rels hne
  have hqnil := bfsFinal_queue_nil people rels
  rcases hrootq p hp with h₁ | h₂
  · rcases hrootg p hp with hg | hg
    · exact absurd hg (hvg p.id h₁)
    · unfold finalGen
      rw [hg]
      rfl
  · rw [hqnil] at h₂
    exact absurd h₂ (by simp)

/-- C1 amended: spouse co-location does not hold in general (the visited
check prevents the revisiting the original claim assumes), but it does
hold for spouses that are both root candidates: a person with no recorded
parent entry always ends at generation 0, so both endpoints of such a
spouse relationship share generation 0. -/
theorem c1_root_spouses_same_generation (people : List Person)
    (rels : List Relationship) (r : Relationship) (a b : Person)
    (_hr : r ∈ rels) (_hsp : isSpouseType r.relationship_type = true)
    (ha : a ∈ people) (hb : b ∈ people)
    (_ha1 : a.id = r.person1_id) (_hb2 : b.id = r.person2_id)
    (haroot : childToParents rels a.id = [])
    (hbroot : childToParents rels b.id = []) :
    finalGen people rels a.id = finalGen people rels b.id := by
  have haR : a ∈ rootsOf people rels :=
    List.mem_filter.mpr ⟨ha, by simp [rootsOf, haroot]⟩
  have hbR : b ∈ rootsOf people rels :=
    List.mem_filter.mpr ⟨hb, by simp [rootsOf, hbroot]⟩
  rw [root_finalGen_zero haR, root_finalGen_zero hbR]

/-- Witness for the amended C1: a spouse pair with no recorded parents is
co-located (both at generation 0). -/
theorem c1_root_spouses_witness :
    finalGen c1wPeople c1wRels "wa" = finalGen c1wPeople c1wRels "wb" :=
  c1_root_spouses_same_generation c1wPeople c1wRels
    ⟨"s1", "wa", "wb", .spouse⟩ ⟨"wa", 10⟩ ⟨"wb", 20⟩
    (by decide) (by decide) (by decide) (by decide)
    rfl rfl (by decide) (by decide)

/-! ## Grouping by generation is a permutation of the people array (C7) -/

theorem flatMap_congr_of_mem {α β : Type} {l : List α} {F G : α → List β}
    (h : ∀ a ∈ l, F a = G a) : l.flatMap F = l.flatMap G := by
  induction l with
  | nil => rfl
  | cons a l ih =>
      rw [List.flatMap_cons, List.flatMap_cons,
        h a (List.mem_cons_self a l),
        ih (fun x hx => h x (List.mem_cons_of_mem a hx))]

theorem flatMap_filter_key_perm (key : Person → Nat) :
    ∀ (gs : List Nat) (l : List Person), gs.Nodup → (∀ p ∈ l, key p ∈ gs) →
      (gs.flatMap (fun g => l.filter (fun p => key p == g))).Perm l := by
  intro gs
  induction gs with
  | nil =>
      intro l _ hall
      have hnil : l = [] := by
        rw [List.eq_nil_iff_forall_not_mem]
        intro a ha
        exact absurd (hall a ha) (List.not_mem_nil _)
      simp [hnil]
  | cons gh gs ih =>
      intro l hnd hall
      have hgh : gh ∉ gs := (List.nodup_cons.mp hnd).1
      have hnd₂ : gs.Nodup := (List.nodup_cons.mp hnd).2
      rw [List.flatMap_cons]
      have hcong : gs.flatMap (fun g => l.filter (fun p => key p == g)) =
          gs.flatMap (fun g =>
            (l.filter (fun p => !(key p == gh))).filter (fun p => key p == g)) := by
        apply flatMap_congr_of_mem
        intro g hg
        have hne : g ≠ gh := fun hcon => hgh (hcon ▸ hg)
        rw [List.filter_filter]
        apply List.filter_congr
        intro p _
        by_cases hk : key p = g
        · have hne₂ : key p ≠ gh := hk ▸ hne
          simp [hk, hne₂, hne]
        · simp [hk]
      rw [hcong]
      have hperm₂ := ih (l.filter (fun p => !(key p == gh))) hnd₂ ?side
      case side =>
        intro p hp
        have hmem := List.mem_of_mem_filter hp
        have hcond := (List.mem_filter.mp hp).2
        have hne : key p ≠ gh := by simpa using hcond
        rcases List.mem_cons.mp (hall p hmem) with h₁ | h₁
        · exact absurd h₁ hne
        · exact h₁
      refine List.Perm.trans ?_ (List.filter_append_perm (fun p => key p == gh) l)
      exact hperm₂.append_left _

theorem sortedGens_nodup (people : List Person) (rels : List Relationship) :
    (sortedGens people rels).Nodup := by
  unfold sortedGens
  exact (List.perm_insertionSort _ _).symm.nodup (List.nodup_dedup _)

theorem finalGen_mem_sortedGens {people : List Person} {rels : List Relationship}
    {p : Person} (hp : p ∈ peopleAfterLayout people rels) :
    finalGen people rels p.id ∈ sortedGens people rels := by
  unfold sortedGens
  apply (List.perm_insertionSort _ _).mem_iff.mpr
  apply List.mem_dedup.mpr
  exact List.mem_map.mpr ⟨p, hp, rfl⟩

theorem buildNodes_ids_perm (people : List Person) (rels : List Relationship) :
    ((buildNodes people rels).map (fun n => n.id)).Perm
      ((peopleAfterLayout people rels).map (fun p => p.id)) := by
  have hgroups : ((sortedGens people rels).flatMap
      (fun g => genGroup people rels g)).Perm (peopleAfterLayout people rels) := by
    apply flatMap_filter_key_perm (fun p => finalGen people rels p.id)
    · exact sortedGens_nodup people rels
    · intro p hp
      exact finalGen_mem_sortedGens hp
  have hids : (buildNodes people rels).map (fun n => n.id) =
      ((sortedGens people rels).flatMap (fun g => genGroup people rels g)).map
        (fun p => p.id) := by
    unfold buildNodes
    rw [List.map_flatMap, List.map_flatMap]
    apply flatMap_congr_of_mem
    intro g _
    rw [List.map_map]
    have hcomp : List.map ((fun n => n.id) ∘ fun e : Nat × Person =>
        mkNode g (genGroup people rels g).length e.1 e.2)
          (genGroup people rels g).enum =
        List.map ((fun p : Person => p.id) ∘ Prod.snd)
          (genGroup people rels g).enum := by
      apply List.map_congr_left
      intro e _
      rfl
    rw [hcomp, ← List.map_map, List.enum_map_snd]
  rw [hids]
  exact hgroups.map _

theorem peopleAfterLayout_ids_perm (people : List Person) (rels : List Relationship) :
    ((peopleAfterLayout people rels).map (fun p => p.id)).Perm
      (people.map (fun p => p.id)) := by
  unfold peopleAfterLayout
  split
  · exact List.Perm.refl _
  · split
    · exact (List.perm_insertionSort _ _).map _
    · exact List.Perm.refl _

/-- C7: coverage and edge soundness — the multiset of output node ids is
exactly the multiset of input person ids (each input person yields exactly
one node, none are synthesized), every output edge's source and target id
appear among the output node ids, and the empty person list yields empty
node and edge sets. -/
theorem c7_coverage_and_edge_soundness (people : List Person)
    (rels : List Relationship) :
    ((calculateLayout people rels).nodes.map (fun n => n.id)).Perm
      (people.map (fun p => p.id)) ∧
    (∀ e ∈ (calculateLayout people rels).edges,
      e.source ∈ (calculateLayout people rels).nodes.map (fun n => n.id) ∧
      e.target ∈ (calculateLayout people rels).nodes.map (fun n => n.id)) ∧
    (people = [] →
      (calculateLayout people rels).nodes = [] ∧
      (calculateLayout people rels).edges = []) := by
  have hperm : ((calculateLayout people rels).nodes.map (fun n => n.id)).Perm
      (people.map (fun p => p.id)) := by
    unfold calculateLayout
    split
    · next hemp =>
        have : people = [] := by simpa using hemp
        simp [this]
    · exact ((buildNodes_ids_perm people rels).trans
        (peopleAfterLayout_ids_perm people rels))
  refine ⟨hperm, ?_, ?_⟩
  · intro e he
    rcases mem_edges_calculateLayout he with ⟨r, _, h1, h2, rfl⟩
    constructor
    · exact hperm.mem_iff.mpr (by simpa [personIds] using h1)
    · exact hperm.mem_iff.mpr (by simpa [personIds] using h2)
  · intro hemp
    subst hemp
    exact ⟨rfl, rfl⟩

def c7wPeople : List Person := [⟨"w7a", 1⟩, ⟨"w7b", 2⟩]

def c7wRels : List Relationship := [⟨"m7", "w7a", "w7b", .biological_parent⟩]

/-- Witness for C7: the source and target of the single produced edge
appear among the node ids, and the empty input produces empty output. -/
theorem c7_coverage_witness :
    ((mkEdge ⟨"m7", "w7a", "w7b", .biological_parent⟩).source ∈
        (calculateLayout c7wPeople c7wRels).nodes.map (fun n => n.id) ∧
      (mkEdge ⟨"m7", "w7a", "w7b", .biological_parent⟩).target ∈
        (calculateLayout c7wPeople c7wRels).nodes.map (fun n => n.id)) ∧
    ((calculateLayout ([] : List Person) c7wRels).nodes = [] ∧
      (calculateLayout ([] : List Person) c7wRels).edges = []) :=
  ⟨(c7_coverage_and_edge_soundness c7wPeople c7wRels).2.1
      (mkEdge ⟨"m7", "w7a", "w7b", .biological_parent⟩) (by decide),
    (c7_coverage_and_edge_soundness [] c7wRels).2.2 rfl⟩

/-- C6 amended: within each generation row the `i`-th member (0-based)
sits at `x = -(count-1)/2 * HORIZONTAL_SPACING + i * HORIZONTAL_SPACING`
and `y = -generation * VERTICAL_SPACING`, where the row order is the order
of the people array *at grouping time*: the input iteration order when a
root candidate exists, but the birthday-sorted order after the in-place
fallback sort when none does (the original claim's "input iteration
order" fails in that case, see the counterexample). -/
theorem c6_node_positions (people : List Person) (rels : List Relationship)
    (gen : Nat) (i : Nat) (hg : gen ∈ sortedGens people rels)
    (hi : i < (genGroup people rels gen).length) :
    mkNode gen (genGroup people rels gen).length i
        ((genGroup people rels gen).get ⟨i, hi⟩) ∈
      (calculateLayout people rels).nodes ∧
    (mkNode gen (genGroup people rels gen).length i
        ((genGroup people rels gen).get ⟨i, hi⟩)).y =
      -(gen : Int) * VERTICAL_SPACING ∧
    (mkNode gen (genGroup people rels gen).length i
        ((genGroup people rels gen).get ⟨i, hi⟩)).x =
      -(((genGroup people rels gen).length : Int) - 1) * HORIZONTAL_SPACING / 2 +
        (i : Int) * HORIZONTAL_SPACING := by
  refine ⟨?_, rfl, rfl⟩
  by_cases hemp : people.isEmpty = true
  · have hpe : people = [] := by simpa using hemp
    subst hpe
    have : sortedGens ([] : List Person) rels = [] := by
      simp [sortedGens, peopleAfterLayout]
    rw [this] at hg
    exact absurd hg (List.not_mem_nil _)
  · have hnodes : (calculateLayout people rels).nodes = buildNodes people rels := by
      unfold calculateLayout
      rw [if_neg hemp]
    rw [hnodes]
    unfold buildNodes
    apply List.mem_flatMap.mpr
    refine ⟨gen, hg, ?_⟩
    apply List.mem_map.mpr
    refine ⟨(i, (genGroup people rels gen).get ⟨i, hi⟩), ?_, rfl⟩
    have hi₂ : i < (genGroup people rels gen).enum.length := by simpa using hi
    have hget : (genGroup people rels gen).enum[i] =
        (i, (genGroup people rels gen)[i]) :=
      List.getElem_enum _ _ hi₂
    have hmem : (genGroup people rels gen).enum[i] ∈
        (genGroup people rels gen).enum := List.getElem_mem hi₂
    rw [hget] at hmem
    simpa [List.get_eq_getElem] using hmem

def c6wPeople : List Person := [⟨"w6a", 1⟩, ⟨"w6b", 2⟩]

def c6wRels : List Relationship := [⟨"n6", "w6a", "w6b", .biological_parent⟩]

/-- Witness for the amended C6: the single generation-0 row member sits at
`x = 0`, `y = 0`, and the generation-1 member at `y = -200`. -/
theorem c6_node_positions_witness :
    mkNode 0 (genGroup c6wPeople c6wRels 0).length 0
        ((genGroup c6wPeople c6wRels 0).get ⟨0, by decide⟩) ∈
      (calculateLayout c6wPeople c6wRels).nodes ∧
    mkNode 1 (genGroup c6wPeople c6wRels 1).length 0
        ((genGroup c6wPeople c6wRels 1).get ⟨0, by decide⟩) ∈
      (calculateLayout c6wPeople c6wRels).nodes :=
  ⟨(c6_node_positions c6wPeople c6wRels 0 0 (by decide) (by decide)).1,
    (c6_node_positions c6wPeople c6wRels 1 0 (by decide) (by decide)).1⟩

/-- C8: `calculateLayout` terminates on every well-typed input, cyclic
parent data included — each dequeue either skips an already-visited entry
or marks a new person visited, so the loop does only bounded work: the
BFS state reached with the computed fuel has an empty queue, meaning the
source's `while` loop always exits, and the embedding (a total function
with no partiality anywhere) mirrors the absence of any throwing
operation in the engine. -/
theorem c8_bfs_terminates (people : List Person) (rels : List Relationship) :
    (bfsAux rels (personIds people) (bfsFuel people rels)
      (bfsInit people rels)).queue = [] :=
  bfsFinal_queue_nil people rels
